import Mathlib

/-!
Verification of the finance-tracking application (`script.js`).

The IndexedDB object stores are modelled as Lean lists of records.  An
IndexedDB store keyed by a primary key holds at most one record per key, so
a list whose key projection is `Nodup` is the faithful image of a store
state; `put` (upsert) replaces the record carrying the key, `delete`
removes it, `getAll` is the list itself.  JavaScript numbers carrying
monetary amounts are modelled by `ℚ`; the claims under study are about
comparison and aggregation structure, not rounding.  Strings (dates,
names, types) are Lean `String`s.
-/

namespace FinanceApp

/-- `Category` record: `{ id (auto-increment), name }` (`script.js`, store
`categories`). -/
structure Category where
  id : Nat
  name : String
deriving DecidableEq, Repr

/-- `Transaction` record: `{ id, type, amount, date, category, desc }`
(`script.js`, store `transactions`).  `desc` is optional in the UI, hence
`Option String`. -/
structure Transaction where
  id : Nat
  type : String
  amount : ℚ
  date : String
  category : String
  desc : Option String
deriving DecidableEq, Repr

/-- `Budget` record: `{ id, month, category, limit }` (`script.js`, store
`budgets`; the key `id` is the explicit composite string). -/
structure Budget where
  id : String
  month : String
  category : String
  limit : ℚ
deriving DecidableEq, Repr

/-! ### JavaScript string primitives used by the code -/

/-- JS `String.prototype.toLowerCase`, character-wise. -/
def jsToLower (s : String) : String := ⟨s.data.map Char.toLower⟩

/-- JS `String.prototype.startsWith`. -/
def jsStartsWith (s pre : String) : Bool := pre.data.isPrefixOf s.data

/-- JS `s.slice(0, 7)` (the `YYYY-MM` prefix of an ISO date). -/
def jsSlice7 (s : String) : String := ⟨s.data.take 7⟩

/-- Substring search on character lists: does `hay` contain `needle` as a
contiguous run?  (Kernel of JS `String.prototype.includes`.) -/
def containsSub (hay needle : List Char) : Bool :=
  match hay with
  | [] => needle.isEmpty
  | c :: t => needle.isPrefixOf (c :: t) || containsSub t needle

/-- JS `hay.includes(needle)`. -/
def jsIncludes (hay needle : String) : Bool := containsSub hay.data needle.data

/-- Lexicographic comparison of character lists by code point, the order
underlying the JS default `Array.prototype.sort()` on strings and the
numeric `Date` comparison on ISO dates. -/
def charListLe : List Char → List Char → Bool
  | [], _ => true
  | _ :: _, [] => false
  | a :: as, b :: bs =>
    if a.toNat < b.toNat then true
    else if b.toNat < a.toNat then false
    else charListLe as bs

/-- Lexicographic `≤` on strings. -/
def strLe (a b : String) : Bool := charListLe a.data b.data

/-! ### The JS plain-object accumulator `obj[k] = (obj[k] || 0) + v`

A JS object used as a map is modelled by an association list whose keys are
in insertion order (exactly how `Object.keys` enumerates them). -/

/-- `m[c] = (m[c] || 0) + a`: add `a` to the entry for key `c`, creating the
entry (at the end, as JS property insertion does) when absent. -/
def addToCat (m : List (String × ℚ)) (c : String) (a : ℚ) : List (String × ℚ) :=
  if m.any (fun p => p.1 == c) then
    m.map (fun p => if p.1 == c then (p.1, p.2 + a) else p)
  else m ++ [(c, a)]

/-- `m[c] || 0`: the accumulated value for key `c`, `0` when absent. -/
def catLookup (m : List (String × ℚ)) (c : String) : ℚ :=
  ((m.find? (fun p => p.1 == c)).map Prod.snd).getD 0

/-! ### IndexedDB store operations (`FinanceDB` in `script.js`) -/

/-- `store.put` on the `transactions` store: replace the record keyed
`t.id` when present, insert otherwise. -/
def putTransaction (l : List Transaction) (t : Transaction) : List Transaction :=
  if l.any (fun u => u.id == t.id) then l.map (fun u => if u.id == t.id then t else u)
  else l ++ [t]

/-- `store.put` on the `categories` store. -/
def putCategory (l : List Category) (c : Category) : List Category :=
  if l.any (fun u => u.id == c.id) then l.map (fun u => if u.id == c.id then c else u)
  else l ++ [c]

/-- `store.put` on the `budgets` store (string key). -/
def putBudget (l : List Budget) (b : Budget) : List Budget :=
  if l.any (fun u => u.id == b.id) then l.map (fun u => if u.id == b.id then b else u)
  else l ++ [b]

/-- `db.delete('transactions', i)`: remove the record keyed `i`. -/
def deleteTransactionById (l : List Transaction) (i : Nat) : List Transaction :=
  l.filter (fun u => !(u.id == i))

/-! ### `FinanceApp.deleteCategory` (`script.js` lines 269-293)

The confirmed path: look the category up by id (early return when absent),
delete every transaction whose `category` equals its name (one keyed delete
per matching transaction), then delete the category row itself; the alert
reports `txsToDelete.length`.  Result: `(categories, transactions, count)`.
-/

def deleteCategory (cats : List Category) (txs : List Transaction) (i : Nat) :
    Option (List Category × List Transaction × Nat) :=
  match cats.find? (fun c => c.id == i) with
  | none => none
  | some cat =>
    let txsToDelete := txs.filter (fun t => t.category == cat.name)
    let txs2 := txsToDelete.foldl (fun acc t => deleteTransactionById acc t.id) txs
    let cats2 := cats.filter (fun c => !(c.id == i))
    some (cats2, txs2, txsToDelete.length)

/-! ### `FinanceApp.editCategory` (`script.js` lines 397-430)

`input` is the `prompt` result (`none` = cancelled).  The guard
`newName && newName !== cat.name` gates the cascade: put the category row
back with the same id and the new name, then walk the snapshot of all
transactions and put back, under its own id, every one whose `category`
equals the old name with that field rewritten. -/

def editCategory (cats : List Category) (txs : List Transaction) (i : Nat)
    (input : Option String) : List Category × List Transaction :=
  match cats.find? (fun c => c.id == i) with
  | none => (cats, txs)
  | some cat =>
    match input with
    | none => (cats, txs)
    | some newName =>
      if newName ≠ "" ∧ newName ≠ cat.name then
        (putCategory cats { id := i, name := newName },
         txs.foldl (fun acc t =>
           if t.category == cat.name then
             putTransaction acc { t with category := newName }
           else acc) txs)
      else (cats, txs)

/-! ### `FinanceApp.saveBudget` (`script.js` lines 443-459) -/

/-- `saveBudget`: composite id `` `${month}-${category}` ``, stored with
`put` (upsert). -/
def saveBudget (budgets : List Budget) (month category : String) (amount : ℚ) :
    List Budget :=
  putBudget budgets
    { id := month ++ "-" ++ category, month := month, category := category, limit := amount }

/-! ### `FinanceApp.renderBudgets` (`script.js` lines 462-526) -/

/-- The `expensesByCategory` object built in `renderBudgets`: sums amounts
of transactions with `type === 'expense'` whose date starts with the
current month, grouped by category string. -/
def expensesByCategory (month : String) (txs : List Transaction) : List (String × ℚ) :=
  txs.foldl (fun m t =>
    if t.type == "expense" && jsStartsWith t.date month then addToCat m t.category t.amount
    else m) []

/-- The status CSS class of a budget row: `text-success` unless
`percent > 80` (then `text-warning`), unless `percent > 100` (then
`text-danger`) — the two sequential `if`s of `renderBudgets`. -/
def statusClass (percent : ℚ) : String :=
  if percent > 100 then "text-danger"
  else if percent > 80 then "text-warning"
  else "text-success"

/-- One rendered budget row. -/
structure BudgetRow where
  category : String
  limitVal : ℚ
  real : ℚ
  diff : ℚ
  percent : ℚ
  status : String
deriving DecidableEq, Repr

/-- `renderBudgets`: rows for the budgets of the current month, each with
`real = expensesByCategory[b.category] || 0`, `diff = b.limit - real`,
`percent = b.limit > 0 ? real / b.limit * 100 : 0` and its status class. -/
def renderBudgets (month : String) (budgets : List Budget) (txs : List Transaction) :
    List BudgetRow :=
  let monthBudgets := budgets.filter (fun b => b.month == month)
  let byCat := expensesByCategory month txs
  monthBudgets.map (fun b =>
    let real := catLookup byCat b.category
    let percent : ℚ := if b.limit > 0 then real / b.limit * 100 else 0
    { category := b.category, limitVal := b.limit, real := real, diff := b.limit - real,
      percent := percent, status := statusClass percent })

/-! ### `FinanceApp.renderTransactions` (`script.js` lines 298-304) -/

/-- The filter predicate: `(t.desc||'').toLowerCase().includes(search) ||
t.category.toLowerCase().includes(search)` with `search` the lowercased
input. -/
def matchesSearch (search : String) (t : Transaction) : Bool :=
  jsIncludes (jsToLower (t.desc.getD "")) search || jsIncludes (jsToLower t.category) search

/-- `renderTransactions`: keep the matching records, sort by date
descending (a stable sort on ISO dates; for ISO `YYYY-MM-DD` strings the
numeric `Date` comparison of the source coincides with the lexicographic
string order used here). -/
def renderTransactions (search : String) (txs : List Transaction) : List Transaction :=
  let s := jsToLower search
  (txs.filter (fun t => matchesSearch s t)).insertionSort
    (fun a b => strLe b.date a.date = true)

/-! ### `FinanceApp.updateDashboard` (`script.js` lines 536-562) -/

/-- The dashboard accumulator `(income, expense, expensesByCat)`. -/
structure DashTotals where
  income : ℚ
  expense : ℚ
  byCat : List (String × ℚ)
deriving DecidableEq, Repr

/-- `updateDashboard` aggregation loop: over the current-month
transactions, `type === 'income'` adds to income, EVERYTHING ELSE adds to
expense and to `expensesByCat`. -/
def updateDashboard (month : String) (txs : List Transaction) : DashTotals :=
  let monthTxs := txs.filter (fun t => jsStartsWith t.date month)
  monthTxs.foldl (fun s t =>
    if t.type == "income" then { s with income := s.income + t.amount }
    else { s with expense := s.expense + t.amount,
                  byCat := addToCat s.byCat t.category t.amount })
    { income := 0, expense := 0, byCat := [] }

/-- `monthBudgets.reduce((acc, b) => acc + b.limit, 0)` over the budgets of
the current month. -/
def totalBudgetLimit (month : String) (budgets : List Budget) : ℚ :=
  (budgets.filter (fun b => b.month == month)).foldl (fun acc b => acc + b.limit) 0

/-- The `kpi-budget-status` percentage:
`totalBudget > 0 ? expense / totalBudget * 100 : 0`. -/
def dashBudgetStatus (month : String) (txs : List Transaction) (budgets : List Budget) : ℚ :=
  let expense := (updateDashboard month txs).expense
  let total := totalBudgetLimit month budgets
  if total > 0 then expense / total * 100 else 0

/-! ### Historical balance trend (`renderCharts`, `script.js` lines 612-627) -/

/-- The `history` object: over ALL transactions, bucket by
`t.date.slice(0, 7)` and add `amount` for income, `-amount` otherwise. -/
def balanceHistory (txs : List Transaction) : List (String × ℚ) :=
  txs.foldl (fun m t =>
    addToCat m (jsSlice7 t.date) (if t.type == "income" then t.amount else -t.amount)) []

/-- The trend chart data: `Object.keys(history).sort()` paired with their
bucket values (`sortedMonths.map(m => history[m])`). -/
def balanceTrend (txs : List Transaction) : List (String × ℚ) :=
  let history := balanceHistory txs
  let sortedMonths := (history.map Prod.fst).insertionSort (fun a b => strLe a b = true)
  sortedMonths.map (fun m => (m, catLookup history m))

/-! ### Concrete scenario data (test scenarios of the specification) -/

/-- Budget `{month:"2024-03", category:"Food", limit:100}`. -/
def scenarioBudget : Budget := ⟨"2024-03-Food", "2024-03", "Food", 100⟩

/-- Transactions `{expense, 50, "2024-03-01", "Food"}` and
`{expense, 30, "2024-03-15", "Food"}`. -/
def scenarioTxs : List Transaction :=
  [⟨1, "expense", 50, "2024-03-01", "Food", none⟩,
   ⟨2, "expense", 30, "2024-03-15", "Food", none⟩]

/-- The budget row the scenario is expected to render. -/
def scenarioRow : BudgetRow := ⟨"Food", 100, 80, 20, 80, "text-success"⟩

/-- Transactions over three months with per-month nets 100, -50 and 30
(the trend scenario of the specification). -/
def trendTxs : List Transaction :=
  [⟨1, "income", 150, "2024-01-05", "A", none⟩,
   ⟨2, "expense", 50, "2024-01-20", "A", none⟩,
   ⟨3, "expense", 50, "2024-02-10", "A", none⟩,
   ⟨4, "income", 40, "2024-03-01", "A", none⟩,
   ⟨5, "expense", 10, "2024-03-02", "A", none⟩]

/-- A small dashboard scenario: one income (30) and one expense (50) in
March 2024. -/
def dashTxs : List Transaction :=
  [⟨1, "expense", 50, "2024-03-01", "Food", none⟩,
   ⟨2, "income", 30, "2024-03-15", "Job", none⟩]

/-- A single 100-limit budget for March 2024. -/
def dashBudgets : List Budget := [⟨"2024-03-Food", "2024-03", "Food", 100⟩]

/-- A zero-limit budget row with positive real spending. -/
def zeroLimitRow : BudgetRow := ⟨"Food", 0, 5, -5, 0, "text-success"⟩

/-! ## Order facts for the sorting relations -/

theorem charListLe_total (as : List Char) :
    ∀ bs, charListLe as bs = true ∨ charListLe bs as = true := by
  induction as with
  | nil => intro bs; left; rfl
  | cons a as ih =>
    intro bs
    cases bs with
    | nil => right; rfl
    | cons b bs =>
      rcases Nat.lt_trichotomy a.toNat b.toNat with h | h | h
      · left; simp [charListLe, h]
      · have h1 : ¬ a.toNat < b.toNat := by omega
        have h2 : ¬ b.toNat < a.toNat := by omega
        simpa [charListLe, h1, h2] using ih bs
      · right; simp [charListLe, h]

theorem charListLe_trans (as : List Char) :
    ∀ bs cs, charListLe as bs = true → charListLe bs cs = true →
      charListLe as cs = true := by
  induction as with
  | nil => intros; rfl
  | cons a as ih =>
    intro bs cs h1 h2
    cases bs with
    | nil => simp [charListLe] at h1
    | cons b bs =>
      cases cs with
      | nil => simp [charListLe] at h2
      | cons c cs =>
        rcases Nat.lt_trichotomy a.toNat b.toNat with hab | hab | hab <;>
          rcases Nat.lt_trichotomy b.toNat c.toNat with hbc | hbc | hbc

        · simp [charListLe, show a.toNat < c.toNat by omega]
        · simp [charListLe, show a.toNat < c.toNat by omega]
        · simp [charListLe, show ¬ b.toNat < c.toNat by omega, hbc] at h2
        · simp [charListLe, show a.toNat < c.toNat by omega]
        · have g1 : ¬ a.toNat < b.toNat := by omega
          have g2 : ¬ b.toNat < a.toNat := by omega
          have g3 : ¬ b.toNat < c.toNat := by omega
          have g4 : ¬ c.toNat < b.toNat := by omega
          simp only [charListLe, if_neg g1, if_neg g2] at h1
          simp only [charListLe, if_neg g3, if_neg g4] at h2
          simp only [charListLe, if_neg (show ¬ a.toNat < c.toNat by omega),
            if_neg (show ¬ c.toNat < a.toNat by omega)]
          exact ih bs cs h1 h2
        · simp [charListLe, show ¬ b.toNat < c.toNat by omega, hbc] at h2
        · simp [charListLe, show ¬ a.toNat < b.toNat by omega, hab] at h1
        · simp [charListLe, show ¬ a.toNat < b.toNat by omega, hab] at h1
        · simp [charListLe, show ¬ a.toNat < b.toNat by omega, hab] at h1

instance : IsTotal String (fun a b => strLe a b = true) :=
  ⟨fun a b => charListLe_total a.data b.data⟩

instance : IsTrans String (fun a b => strLe a b = true) :=
  ⟨fun a b c h1 h2 => charListLe_trans a.data b.data c.data h1 h2⟩

instance : IsTotal Transaction (fun a b => strLe b.date a.date = true) :=
  ⟨fun a b => charListLe_total b.date.data a.date.data⟩

instance : IsTrans Transaction (fun a b => strLe b.date a.date = true) :=
  ⟨fun a b c h1 h2 => charListLe_trans c.date.data b.date.data a.date.data h2 h1⟩

/-! ## The JS object accumulator: lookup and key lemmas -/

theorem catLookup_addToCat (m : List (String × ℚ)) (c : String) (a : ℚ) (c' : String) :
    catLookup (addToCat m c a) c' = catLookup m c' + if c' = c then a else 0 := by
  by_cases hany : m.any (fun p => p.1 == c)
  · have hupd : ∀ p : String × ℚ, ((if p.1 == c then (p.1, p.2 + a) else p) : String × ℚ).1 = p.1 := by
      intro p; split <;> rfl
    simp only [addToCat, if_pos hany, catLookup, List.find?_map]
    have hcomp : ((fun p : String × ℚ => p.1 == c') ∘
        fun p => if p.1 == c then (p.1, p.2 + a) else p) = fun p : String × ℚ => p.1 == c' := by
      funext p
      simp only [Function.comp_apply]
      exact congrArg (fun x => x == c') (hupd p)
    rw [hcomp]
    by_cases hc : c' = c
    · subst hc
      obtain ⟨q, hq⟩ : ∃ q, m.find? (fun p => p.1 == c') = some q := by
        have : (m.find? (fun p => p.1 == c')).isSome := by
          rw [List.find?_isSome]
          simpa using hany
        exact Option.isSome_iff_exists.mp this
      have hq1 : q.1 = c' := by simpa using List.find?_some hq
      simp [hq, hq1]
    · rcases hfind : m.find? (fun p => p.1 == c') with _ | q
      · simp [hfind, hc]
      · have hq1 : q.1 = c' := by simpa using List.find?_some hfind
        have : ¬ (q.1 == c) = true := by simp [hq1, hc]
        simp [hfind, this, hc, hq1]
  · simp only [addToCat, if_neg hany, catLookup, List.find?_append]
    by_cases hc : c' = c
    · subst hc
      have hnone : m.find? (fun p => p.1 == c') = none := by
        rw [List.find?_eq_none]
        intro x hx hxc
        exact hany (List.any_eq_true.mpr ⟨x, hx, hxc⟩)
      simp [hnone]
    · rcases hfind : m.find? (fun p => p.1 == c') with _ | q
      · simp [hfind, Ne.symm hc, hc]
      · simp [hfind, hc]

theorem mem_keys_addToCat (m : List (String × ℚ)) (c : String) (a : ℚ) (c' : String) :
    c' ∈ (addToCat m c a).map Prod.fst ↔ c' ∈ m.map Prod.fst ∨ c' = c := by
  by_cases hany : m.any (fun p => p.1 == c)
  · have hkeys : ((m.map (fun p => if p.1 == c then (p.1, p.2 + a) else p)).map Prod.fst)
        = m.map Prod.fst := by
      rw [List.map_map]
      refine List.map_congr_left fun p _ => ?_
      simp only [Function.comp]; split <;> rfl
    have hmemc : c ∈ m.map Prod.fst := by
      simp only [List.any_eq_true] at hany
      obtain ⟨p, hp, hpc⟩ := hany
      simp only [beq_iff_eq] at hpc
      exact List.mem_map.mpr ⟨p, hp, hpc⟩
    simp only [addToCat, if_pos hany, hkeys]
    constructor
    · exact Or.inl
    · rintro (h | rfl)
      · exact h
      · exact hmemc
  · simp [addToCat, if_neg hany]

theorem catLookup_foldl (p : Transaction → Bool) (k : Transaction → String)
    (v : Transaction → ℚ) (txs : List Transaction) :
    ∀ (m0 : List (String × ℚ)) (c : String),
    catLookup (txs.foldl (fun m t => if p t then addToCat m (k t) (v t) else m) m0) c
      = catLookup m0 c + ((txs.filter (fun t => p t && k t == c)).map v).sum := by
  induction txs with
  | nil => intro m0 c; simp
  | cons t ts ih =>
    intro m0 c
    by_cases hp : p t
    · by_cases hk : k t = c
      · simp only [List.foldl_cons, if_pos hp]
        rw [ih, catLookup_addToCat]
        simp [List.filter_cons, hp, hk]
        ring
      · simp only [List.foldl_cons, if_pos hp]
        rw [ih, catLookup_addToCat]
        have : ¬ c = k t := fun h => hk h.symm
        simp [List.filter_cons, hp, hk, this]
    · simp only [List.foldl_cons, if_neg hp]
      rw [ih]
      simp [List.filter_cons, hp]

theorem mem_keys_foldl (p : Transaction → Bool) (k : Transaction → String)
    (v : Transaction → ℚ) (txs : List Transaction) :
    ∀ (m0 : List (String × ℚ)) (c' : String),
    c' ∈ ((txs.foldl (fun m t => if p t then addToCat m (k t) (v t) else m) m0).map Prod.fst)
      ↔ c' ∈ m0.map Prod.fst ∨ ∃ t ∈ txs, p t ∧ k t = c' := by
  induction txs with
  | nil => intro m0 c'; simp
  | cons t ts ih =>
    intro m0 c'
    by_cases hp : p t
    · simp only [List.foldl_cons, if_pos hp]
      rw [ih, mem_keys_addToCat]
      constructor
      · rintro ((h | rfl) | ⟨u, hu, hpu, hku⟩)
        · exact Or.inl h
        · exact Or.inr ⟨t, List.mem_cons_self t ts, hp, rfl⟩
        · exact Or.inr ⟨u, List.mem_cons_of_mem t hu, hpu, hku⟩
      · rintro (h | ⟨u, hu, hpu, hku⟩)
        · exact Or.inl (Or.inl h)
        · rcases List.mem_cons.mp hu with rfl | hu'
          · exact Or.inl (Or.inr hku.symm)
          · exact Or.inr ⟨u, hu', hpu, hku⟩
    · simp only [List.foldl_cons, if_neg hp]
      rw [ih]
      constructor
      · rintro (h | ⟨u, hu, hpu, hku⟩)
        · exact Or.inl h
        · exact Or.inr ⟨u, List.mem_cons_of_mem t hu, hpu, hku⟩
      · rintro (h | ⟨u, hu, hpu, hku⟩)
        · exact Or.inl h
        · rcases List.mem_cons.mp hu with rfl | hu'
          · exact absurd hpu hp
          · exact Or.inr ⟨u, hu', hpu, hku⟩

/-! ## Budget status classification (claims C4, C5) -/

theorem statusClass_spec (q : ℚ) :
    (statusClass q = "text-success" ↔ q ≤ 80) ∧
    (statusClass q = "text-warning" ↔ 80 < q ∧ q ≤ 100) ∧
    (statusClass q = "text-danger" ↔ 100 < q) := by
  unfold statusClass
  split_ifs with h1 h2
  · exact ⟨iff_of_false (by decide) (by intro h; linarith),
           iff_of_false (by decide) (by intro h; linarith [h.2]),
           iff_of_true rfl h1⟩
  · exact ⟨iff_of_false (by decide) (by intro h; linarith),
           iff_of_true rfl ⟨h2, not_lt.mp h1⟩,
           iff_of_false (by decide) h1⟩
  · exact ⟨iff_of_true rfl (not_lt.mp h2),
           iff_of_false (by decide) (by intro h; exact h2 h.1),
           iff_of_false (by decide) h1⟩

/-- Shape of a rendered budget row: its `status` is the `statusClass` of its
`percent`, and its `percent` is the guarded `real / limit * 100`. -/
theorem renderBudgets_row_shape (month : String) (budgets : List Budget)
    (txs : List Transaction) (row : BudgetRow)
    (hrow : row ∈ renderBudgets month budgets txs) :
    row.status = statusClass row.percent ∧
    row.percent = (if row.limitVal > 0 then row.real / row.limitVal * 100 else 0) := by
  simp only [renderBudgets, List.mem_map, List.mem_filter] at hrow
  obtain ⟨b, _, heq⟩ := hrow
  subst heq
  constructor <;> rfl

/-- C4: for every budget row rendered for the current period, the status
classification by `percentUsed` is: normal (`text-success`) iff
`percent ≤ 80`, warning iff `80 < percent ≤ 100`, over-budget
(`text-danger`) iff `percent > 100`; in particular percent exactly 80 is
normal and percent exactly 100 is warning. -/
theorem budget_status_classification (month : String) (budgets : List Budget)
    (txs : List Transaction) (row : BudgetRow)
    (hrow : row ∈ renderBudgets month budgets txs) :
    (row.status = "text-success" ↔ row.percent ≤ 80) ∧
    (row.status = "text-warning" ↔ 80 < row.percent ∧ row.percent ≤ 100) ∧
    (row.status = "text-danger" ↔ 100 < row.percent) ∧
    (row.percent = 80 → row.status = "text-success") ∧
    (row.percent = 100 → row.status = "text-warning") := by
  obtain ⟨hst, -⟩ := renderBudgets_row_shape month budgets txs row hrow
  rw [hst]
  obtain ⟨i1, i2, i3⟩ := statusClass_spec row.percent
  refine ⟨i1, i2, i3, fun h => i1.mpr (by rw [h]), fun h => i2.mpr (by rw [h]; norm_num)⟩

/-- C4 witness: the specification scenario — expenses 50 and 30 against a
limit of 100 give percent 80 and status normal. -/
theorem budget_status_classification_witness :
    (scenarioRow.status = "text-success" ↔ scenarioRow.percent ≤ 80) ∧
    (scenarioRow.status = "text-warning" ↔ 80 < scenarioRow.percent ∧ scenarioRow.percent ≤ 100) ∧
    (scenarioRow.status = "text-danger" ↔ 100 < scenarioRow.percent) ∧
    (scenarioRow.percent = 80 → scenarioRow.status = "text-success") ∧
    (scenarioRow.percent = 100 → scenarioRow.status = "text-warning") := by
  refine budget_status_classification "2024-03" [scenarioBudget] scenarioTxs scenarioRow ?_
  simp only [renderBudgets, scenarioBudget, scenarioTxs, scenarioRow, expensesByCategory,
    addToCat, catLookup, statusClass, jsStartsWith, List.foldl, List.filter, List.map]
  norm_num

/-- C5: percentage computations are division-by-zero guarded: a rendered
budget row with non-positive limit has `percent = 0` whatever the real
spending, a row with zero real spending has `percent = 0`, and the
dashboard budget-utilization percentage is `0` whenever the total budget
limit of the period is non-positive. -/
theorem percent_division_guard (month : String) (budgets : List Budget)
    (txs : List Transaction) (row : BudgetRow)
    (hrow : row ∈ renderBudgets month budgets txs) :
    (row.limitVal ≤ 0 → row.percent = 0) ∧
    (row.real = 0 → row.percent = 0) ∧
    (totalBudgetLimit month budgets ≤ 0 → dashBudgetStatus month txs budgets = 0) := by
  obtain ⟨-, hp⟩ := renderBudgets_row_shape month budgets txs row hrow
  refine ⟨fun hlim => ?_, fun hreal => ?_, fun htot => ?_⟩
  · rw [hp, if_neg (not_lt.mpr hlim)]
  · rw [hp, hreal]
    split <;> simp
  · simp only [dashBudgetStatus]
    rw [if_neg (not_lt.mpr htot)]

/-- C5 witness: a zero-limit budget with positive real spending yields
percent 0, and an empty month yields dashboard budget status 0. -/
theorem percent_division_guard_witness :
    zeroLimitRow.percent = 0 ∧
    dashBudgetStatus "2024-03" [⟨1, "expense", 5, "2024-03-05", "Food", none⟩]
      [⟨"2024-03-Food", "2024-03", "Food", 0⟩] = 0 := by
  have hrow : zeroLimitRow ∈ renderBudgets "2024-03"
      [⟨"2024-03-Food", "2024-03", "Food", 0⟩]
      [⟨1, "expense", 5, "2024-03-05", "Food", none⟩] := by
    simp only [renderBudgets, zeroLimitRow, expensesByCategory, addToCat, catLookup,
      statusClass, jsStartsWith, List.foldl, List.filter, List.map]
    norm_num
  have h := percent_division_guard "2024-03" [⟨"2024-03-Food", "2024-03", "Food", 0⟩]
    [⟨1, "expense", 5, "2024-03-05", "Food", none⟩] zeroLimitRow hrow
  exact ⟨h.1 (by norm_num [zeroLimitRow]),
         h.2.2 (by norm_num [totalBudgetLimit, List.filter, List.foldl])⟩

/-! ## Same-name rename is a no-op (claim C9) -/

/-- C9: invoking the category rename with a new name equal to the current
name writes nothing: both collections are returned unchanged and no
cascade runs. -/
theorem editCategory_same_name_noop (cats : List Category) (txs : List Transaction)
    (i : Nat) (cat : Category)
    (hfind : cats.find? (fun c => c.id == i) = some cat) :
    editCategory cats txs i (some cat.name) = (cats, txs) := by
  simp [editCategory, hfind]

/-- C9 witness: renaming category 1 (named `A`) to `A` changes nothing. -/
theorem editCategory_same_name_noop_witness :
    editCategory [⟨1, "A"⟩] [⟨10, "expense", 5, "2024-03-01", "A", none⟩] 1 (some "A")
      = ([⟨1, "A"⟩], [⟨10, "expense", 5, "2024-03-01", "A", none⟩]) :=
  editCategory_same_name_noop [⟨1, "A"⟩] [⟨10, "expense", 5, "2024-03-01", "A", none⟩]
    1 ⟨1, "A"⟩ rfl

/-! ## Cascading category delete (claim C1) -/

/-- Folding keyed deletes over a worklist removes exactly the records whose
id occurs in the worklist. -/
theorem foldl_deleteById (L : List Transaction) :
    ∀ s : List Transaction,
    L.foldl (fun acc t => deleteTransactionById acc t.id) s
      = s.filter (fun u => !(L.any (fun t => u.id == t.id))) := by
  induction L with
  | nil => intro s; simp
  | cons t ts ih =>
    intro s
    simp only [List.foldl_cons]
    rw [ih]
    show (s.filter fun u => !(u.id == t.id)).filter (fun u => !(ts.any fun t => u.id == t.id))
      = _
    rw [List.filter_filter]
    refine List.filter_congr fun u _ => ?_
    simp only [List.any_cons, Bool.not_or, Bool.and_comm]

/-- With unique transaction ids, deleting by the ids of the matching
transactions removes exactly the matching transactions. -/
theorem foldl_deleteById_filter (txs : List Transaction) (name : String)
    (htnd : (txs.map (fun t => t.id)).Nodup) :
    (txs.filter (fun t => t.category == name)).foldl
        (fun acc t => deleteTransactionById acc t.id) txs
      = txs.filter (fun t => !(t.category == name)) := by
  rw [foldl_deleteById]
  refine List.filter_congr fun u hu => ?_
  congr 1
  by_cases hc : u.category = name
  · rw [show (u.category == name) = true by simp [hc]]
    apply List.any_eq_true.mpr
    exact ⟨u, List.mem_filter.mpr ⟨hu, by simp [hc]⟩, by simp⟩
  · have hnone : ∀ t ∈ txs.filter (fun t => t.category == name), ¬ (u.id == t.id) = true := by
      intro t ht hid
      obtain ⟨htx, hmatch⟩ := List.mem_filter.mp ht
      have hut : u = t := List.inj_on_of_nodup_map htnd hu htx (by simpa using hid)
      subst hut
      exact hc (by simpa using hmatch)
    rw [List.any_eq_false.mpr hnone]
    simp [hc]

/-- With unique category ids, the keyed delete of the found category is
`erase`: it removes that category and no other. -/
theorem filter_ne_id_eq_erase (cats : List Category) (i : Nat) (cat : Category)
    (hfind : cats.find? (fun c => c.id == i) = some cat)
    (hcnd : (cats.map (fun c => c.id)).Nodup) :
    cats.filter (fun c => !(c.id == i)) = cats.erase cat := by
  induction cats with
  | nil => simp at hfind
  | cons d ds ih =>
    rw [List.map_cons, List.nodup_cons] at hcnd
    by_cases hd : (d.id == i) = true
    · have hdcat : d = cat := by
        rw [List.find?_cons_of_pos ds hd] at hfind
        exact Option.some.inj hfind
      subst hdcat
      rw [List.erase_cons_head]
      rw [List.filter_cons_of_neg (by simp [hd])]
      refine List.filter_eq_self.mpr fun c hc => ?_
      have hne : ¬ c.id = d.id := by
        intro h
        exact hcnd.1 (List.mem_map.mpr ⟨c, hc, h⟩)
      simp only [beq_iff_eq] at hd
      simp [hd ▸ hne]
    · have hfind' : ds.find? (fun c => c.id == i) = some cat := by
        rwa [List.find?_cons_of_neg ds hd] at hfind
      have hdcat : d ≠ cat := by
        intro h
        have hp := List.find?_some hfind'
        rw [h] at hd
        exact hd hp
      rw [List.filter_cons_of_pos (by simp [hd])]
      rw [List.erase_cons_tail (by simpa using hdcat)]
      rw [ih hfind' hcnd.2]

/-- C1: the cascading category delete, run on the id of a stored category
`cat`, removes exactly the transactions whose `category` equals
`cat.name`, removes `cat` itself and no other category, and reports the
number of removed transactions. -/
theorem deleteCategory_spec (cats : List Category) (txs : List Transaction) (i : Nat)
    (cat : Category)
    (hfind : cats.find? (fun c => c.id == i) = some cat)
    (hcnd : (cats.map (fun c => c.id)).Nodup)
    (htnd : (txs.map (fun t => t.id)).Nodup) :
    deleteCategory cats txs i =
      some (cats.erase cat,
            txs.filter (fun t => !(t.category == cat.name)),
            (txs.filter (fun t => t.category == cat.name)).length) := by
  simp only [deleteCategory, hfind]
  rw [foldl_deleteById_filter txs cat.name htnd,
      filter_ne_id_eq_erase cats i cat hfind hcnd]

/-- C1 witness: deleting category 1 (named `A`, with zero associated
transactions) deletes 0 transactions and exactly that one category. -/
theorem deleteCategory_spec_witness :
    deleteCategory [⟨1, "A"⟩, ⟨2, "B"⟩] [⟨10, "expense", 5, "2024-03-01", "B", none⟩] 1
      = some ([⟨2, "B"⟩], [⟨10, "expense", 5, "2024-03-01", "B", none⟩], 0) := by
  rw [deleteCategory_spec [⟨1, "A"⟩, ⟨2, "B"⟩] [⟨10, "expense", 5, "2024-03-01", "B", none⟩]
    1 ⟨1, "A"⟩ rfl (by decide) (by decide)]
  decide

/-! ## Cascading category rename (claim C2) -/

/-- The rename cascade loop: iterating over a snapshot `L` of the store
`s`, putting back every matching transaction with its `category` rewritten,
is — when ids are unique keys — the pointwise rewrite of the store. -/
theorem editCategory_fold (old new : String) (L : List Transaction) :
    ∀ s : List Transaction,
    (L.map (fun t => t.id)).Nodup →
    (∀ t ∈ L, ∀ u ∈ s, u.id = t.id → u = t) →
    (∀ t ∈ L, t.id ∈ s.map (fun u => u.id)) →
    L.foldl (fun acc t =>
        if t.category == old then putTransaction acc { t with category := new } else acc) s
      = s.map (fun u =>
          if u.id ∈ L.map (fun t => t.id) ∧ u.category = old then { u with category := new }
          else u) := by
  induction L with
  | nil =>
    intro s _ _ _
    simp
  | cons t ts ih =>
    intro s hnd hinj hmem
    rw [List.map_cons, List.nodup_cons] at hnd
    have hinj_t := hinj t (List.mem_cons_self t ts)
    by_cases hcat : (t.category == old) = true
    · have hidmem : t.id ∈ s.map (fun u => u.id) := hmem t (List.mem_cons_self t ts)
      obtain ⟨u0, hu0, hu0id⟩ := List.mem_map.mp hidmem
      have hput : putTransaction s { t with category := new }
          = s.map (fun u => if u.id == t.id then { t with category := new } else u) := by
        have hany : s.any (fun u => u.id == Transaction.id { t with category := new }) = true :=
          List.any_eq_true.mpr ⟨u0, hu0, by simp [hu0id]⟩
        simp only [putTransaction]
        rw [if_pos hany]
      have hids : (s.map (fun u => if u.id == t.id then { t with category := new } else u)).map
          (fun u => u.id) = s.map (fun u => u.id) := by
        rw [List.map_map]
        refine List.map_congr_left fun u _ => ?_
        simp only [Function.comp]
        split
        · next h => simpa using (by simpa using h : u.id = t.id).symm
        · rfl
      rw [List.foldl_cons, if_pos hcat, hput]
      rw [ih _ hnd.2 ?inj ?mem]
      case inj =>
        intro r hr u hu hid
        obtain ⟨v, hv, hveq⟩ := List.mem_map.mp hu
        by_cases hvid : (v.id == t.id) = true
        · rw [if_pos hvid] at hveq
          exfalso
          apply hnd.1
          rw [← hveq] at hid
          simp only [] at hid
          exact List.mem_map.mpr ⟨r, hr, by simpa using hid.symm⟩
        · rw [if_neg hvid] at hveq
          subst hveq
          exact hinj r (List.mem_cons_of_mem t hr) v hv hid
      case mem =>
        intro r hr
        rw [hids]
        exact hmem r (List.mem_cons_of_mem t hr)
      · rw [List.map_map]
        refine List.map_congr_left fun u hu => ?_
        simp only [Function.comp]
        by_cases huid : (u.id == t.id) = true
        · have hut : u = t := hinj_t u hu (by simpa using huid)
          subst hut
          rw [if_pos huid]
          have hnotts : Transaction.id { u with category := new } ∉ ts.map (fun r => r.id) := by
            simpa using hnd.1
          rw [if_neg (by exact fun h => hnotts h.1)]
          rw [if_pos ⟨List.mem_cons_self _ _, by simpa using hcat⟩]
        · rw [if_neg huid]
          have hne : ¬ u.id = t.id := by simpa using huid
          by_cases hc2 : u.id ∈ ts.map (fun r => r.id) ∧ u.category = old
          · rw [if_pos hc2, if_pos ⟨List.mem_cons_of_mem _ hc2.1, hc2.2⟩]
          · rw [if_neg hc2, if_neg ?_]
            rintro ⟨hmem2, hcat2⟩
            rcases List.mem_cons.mp hmem2 with h | h
            · exact hne h
            · exact hc2 ⟨h, hcat2⟩
    · simp only [List.foldl_cons, if_neg hcat]
      rw [ih s hnd.2 (fun r hr => hinj r (List.mem_cons_of_mem t hr))
        (fun r hr => hmem r (List.mem_cons_of_mem t hr))]
      refine List.map_congr_left fun u hu => ?_
      by_cases huid : u.id = t.id
      · have hut : u = t := hinj_t u hu huid
        subst hut
        have hcn : ¬ u.category = old := by simpa using hcat
        rw [if_neg (fun h => hcn h.2), if_neg (fun h => hcn h.2)]
      · by_cases hc2 : u.id ∈ ts.map (fun r => r.id) ∧ u.category = old
        · rw [if_pos hc2, if_pos ⟨List.mem_cons_of_mem _ hc2.1, hc2.2⟩]
        · rw [if_neg hc2, if_neg ?_]
          rintro ⟨hmem2, hcat2⟩
          rcases List.mem_cons.mp hmem2 with h | h
          · exact huid h
          · exact hc2 ⟨h, hcat2⟩

/-- C2: renaming a stored category to a different (non-empty) name
rewrites the Category row in place (same id, new name) and rewrites the
`category` field of exactly the transactions whose category equals the old
name, leaving their other fields, all non-matching transactions and all
other categories untouched. -/
theorem editCategory_cascade (cats : List Category) (txs : List Transaction) (i : Nat)
    (cat : Category) (newName : String)
    (hfind : cats.find? (fun c => c.id == i) = some cat)
    (htnd : (txs.map (fun t => t.id)).Nodup)
    (hne : newName ≠ cat.name) (hnempty : newName ≠ "") :
    editCategory cats txs i (some newName)
      = (cats.map (fun c => if c.id = i then { id := i, name := newName } else c),
         txs.map (fun t =>
           if t.category = cat.name then { t with category := newName } else t)) := by
  simp only [editCategory, hfind]
  rw [if_pos ⟨hnempty, hne⟩]
  have hcats : putCategory cats { id := i, name := newName }
      = cats.map (fun c => if c.id = i then { id := i, name := newName } else c) := by
    have hpred := List.find?_some hfind
    have hmemi : cats.any (fun u => u.id == Category.id { id := i, name := newName }) = true :=
      List.any_eq_true.mpr ⟨cat, List.mem_of_find?_eq_some hfind, by simpa using hpred⟩
    simp only [putCategory]
    rw [if_pos hmemi]
    refine List.map_congr_left fun c _ => ?_
    by_cases h : c.id = i
    · rw [if_pos (by simpa using h), if_pos h]
    · rw [if_neg (by simpa using h), if_neg h]
  have htxs : txs.foldl (fun acc t =>
        if t.category == cat.name then putTransaction acc { t with category := newName }
        else acc) txs
      = txs.map (fun t =>
          if t.category = cat.name then { t with category := newName } else t) := by
    rw [editCategory_fold cat.name newName txs txs htnd
      (fun t ht u hu h => List.inj_on_of_nodup_map htnd hu ht h)
      (fun t ht => List.mem_map.mpr ⟨t, ht, rfl⟩)]
    refine List.map_congr_left fun u hu => ?_
    by_cases h : u.category = cat.name
    · rw [if_pos ⟨List.mem_map.mpr ⟨u, hu, rfl⟩, h⟩, if_pos h]
    · rw [if_neg (fun hc => h hc.2), if_neg h]
  rw [hcats, htxs]

/-- C2 witness: renaming category 1 from `A` to `C` rewrites exactly the
one transaction whose category is `A`. -/
theorem editCategory_cascade_witness :
    editCategory [⟨1, "A"⟩, ⟨2, "B"⟩]
      [⟨10, "expense", 5, "2024-03-01", "A", some "x"⟩,
       ⟨11, "income", 7, "2024-03-02", "B", none⟩] 1 (some "C")
      = ([⟨1, "C"⟩, ⟨2, "B"⟩],
         [⟨10, "expense", 5, "2024-03-01", "C", some "x"⟩,
          ⟨11, "income", 7, "2024-03-02", "B", none⟩]) := by
  rw [editCategory_cascade [⟨1, "A"⟩, ⟨2, "B"⟩]
    [⟨10, "expense", 5, "2024-03-01", "A", some "x"⟩,
     ⟨11, "income", 7, "2024-03-02", "B", none⟩] 1 ⟨1, "A"⟩ "C" rfl (by decide)
    (by decide) (by decide)]
  decide

/-! ## Budget upsert and the (month, category) uniqueness invariant (claim C3) -/

/-- The canonical-id invariant: every stored budget carries the composite
id derived from its pair, which `saveBudget` establishes for every record
it writes. -/
theorem saveBudget_canon (budgets : List Budget) (m c : String) (l : ℚ)
    (hcanon : ∀ b ∈ budgets, b.id = b.month ++ "-" ++ b.category) :
    ∀ b ∈ saveBudget budgets m c l, b.id = b.month ++ "-" ++ b.category := by
  intro b hb
  simp only [saveBudget, putBudget] at hb
  split at hb
  · obtain ⟨u, hu, heq⟩ := List.mem_map.mp hb
    split at heq
    · subst heq; rfl
    · subst heq; exact hcanon u hu
  · rcases List.mem_append.mp hb with h | h
    · exact hcanon b h
    · rw [List.mem_singleton.mp h]

/-- `saveBudget` preserves the uniqueness of budget ids. -/
theorem saveBudget_nodup (budgets : List Budget) (m c : String) (l : ℚ)
    (hnd : (budgets.map (fun b => b.id)).Nodup) :
    ((saveBudget budgets m c l).map (fun b => b.id)).Nodup := by
  simp only [saveBudget, putBudget]
  split
  · have hids : (budgets.map (fun u =>
        if u.id == Budget.id { id := m ++ "-" ++ c, month := m, category := c, limit := l } then
          { id := m ++ "-" ++ c, month := m, category := c, limit := l } else u)).map
        (fun b => b.id) = budgets.map (fun b => b.id) := by
      rw [List.map_map]
      refine List.map_congr_left fun u _ => ?_
      simp only [Function.comp]
      split
      · next h => simpa using (by simpa using h : u.id = m ++ "-" ++ c).symm
      · rfl
    rw [hids]; exact hnd
  · next hany =>
    rw [List.map_append, List.map_singleton]
    rw [List.nodup_append]
    refine ⟨hnd, List.nodup_singleton _, ?_⟩
    intro x hx
    simp only [List.mem_singleton]
    intro hxid
    obtain ⟨u, hu, huid⟩ := List.mem_map.mp hx
    exact hany (List.any_eq_true.mpr ⟨u, hu, by simp [huid, hxid]⟩)

/-- Under the canonical-id invariant and unique ids, at most one stored
budget matches any (month, category) pair. -/
theorem pair_count_le_one (budgets : List Budget) (m c : String)
    (hcanon : ∀ b ∈ budgets, b.id = b.month ++ "-" ++ b.category)
    (hnd : (budgets.map (fun b => b.id)).Nodup) :
    (budgets.filter (fun b => b.month == m && b.category == c)).length ≤ 1 := by
  induction budgets with
  | nil => simp
  | cons d ds ih =>
    rw [List.map_cons, List.nodup_cons] at hnd
    rw [List.filter_cons]
    by_cases hd : (d.month == m && d.category == c) = true
    · rw [if_pos hd]
      have hempty : ds.filter (fun b => b.month == m && b.category == c) = [] := by
        refine List.filter_eq_nil_iff.mpr fun e he hpe => ?_
        simp only [Bool.and_eq_true, beq_iff_eq] at hd hpe
        apply hnd.1
        refine List.mem_map.mpr ⟨e, he, ?_⟩
        rw [hcanon e (List.mem_cons_of_mem d he), hpe.1, hpe.2,
          hcanon d (List.mem_cons_self d ds), hd.1, hd.2]
      rw [hempty]
      simp
    · rw [if_neg hd]
      exact ih (fun b hb => hcanon b (List.mem_cons_of_mem d hb)) hnd.2

/-- Replacing the record keyed by a canonical pair id leaves exactly the
new record matching that pair. -/
theorem filter_pair_map_put (m c : String) (nb : Budget)
    (hid : nb.id = m ++ "-" ++ c) (hm : nb.month = m) (hc : nb.category = c)
    (budgets : List Budget)
    (hcanon : ∀ b ∈ budgets, b.id = b.month ++ "-" ++ b.category)
    (hnd : (budgets.map (fun b => b.id)).Nodup)
    (hmem : ∃ u ∈ budgets, u.id = nb.id) :
    (budgets.map (fun u => if u.id == nb.id then nb else u)).filter
        (fun b => b.month == m && b.category == c) = [nb] := by
  induction budgets with
  | nil => obtain ⟨u, hu, -⟩ := hmem; exact absurd hu (List.not_mem_nil u)
  | cons d ds ih =>
    rw [List.map_cons, List.nodup_cons] at hnd
    rw [List.map_cons]
    by_cases hd : (d.id == nb.id) = true
    · rw [if_pos hd, List.filter_cons, if_pos (by simp [hm, hc])]
      have hrest : (ds.map (fun u => if u.id == nb.id then nb else u)).filter
          (fun b => b.month == m && b.category == c) = [] := by
        refine List.filter_eq_nil_iff.mpr fun e he hpe => ?_
        obtain ⟨w, hw, hweq⟩ := List.mem_map.mp he
        have hwid : ¬ (w.id == nb.id) = true := by
          intro habs
          apply hnd.1
          refine List.mem_map.mpr ⟨w, hw, ?_⟩
          have h1 : w.id = nb.id := by simpa using habs
          have h2 : d.id = nb.id := by simpa using hd
          rw [h1, h2]
        rw [if_neg hwid] at hweq
        subst hweq
        simp only [Bool.and_eq_true, beq_iff_eq] at hpe
        apply hwid
        have hw2 := hcanon w (List.mem_cons_of_mem d hw)
        simp [hw2, hpe.1, hpe.2, hid]
      rw [hrest]
    · rw [if_neg hd]
      have hdpair : ¬ (d.month == m && d.category == c) = true := by
        intro habs
        simp only [Bool.and_eq_true, beq_iff_eq] at habs
        apply hd
        have hd2 := hcanon d (List.mem_cons_self d ds)
        simp [hd2, habs.1, habs.2, hid]
      rw [List.filter_cons, if_neg hdpair]
      refine ih (fun b hb => hcanon b (List.mem_cons_of_mem d hb)) hnd.2 ?_
      obtain ⟨u, hu, huid⟩ := hmem
      rcases List.mem_cons.mp hu with rfl | hu'
      · exact absurd (by simpa using huid) (by simpa using hd)
      · exact ⟨u, hu', huid⟩

/-- After a save, exactly one record matches the saved pair: the record
just written. -/
theorem saveBudget_filter_pair (budgets : List Budget) (m c : String) (l : ℚ)
    (hcanon : ∀ b ∈ budgets, b.id = b.month ++ "-" ++ b.category)
    (hnd : (budgets.map (fun b => b.id)).Nodup) :
    (saveBudget budgets m c l).filter (fun b => b.month == m && b.category == c)
      = [{ id := m ++ "-" ++ c, month := m, category := c, limit := l }] := by
  simp only [saveBudget, putBudget]
  split
  · next hany =>
    obtain ⟨u0, hu0, hu0id⟩ := List.any_eq_true.mp hany
    exact filter_pair_map_put m c
      { id := m ++ "-" ++ c, month := m, category := c, limit := l }
      rfl rfl rfl budgets hcanon hnd ⟨u0, hu0, by simpa using hu0id⟩
  · next hany =>
    rw [List.filter_append]
    have hleft : budgets.filter (fun b => b.month == m && b.category == c) = [] := by
      refine List.filter_eq_nil_iff.mpr fun e he hpe => ?_
      simp only [Bool.and_eq_true, beq_iff_eq] at hpe
      apply hany
      refine List.any_eq_true.mpr ⟨e, he, ?_⟩
      have he2 := hcanon e he
      simp [he2, hpe.1, hpe.2]
    rw [hleft]
    simp

/-- C3: saving a budget never creates a second record for any
(month, category) pair, and saving twice for the same pair with different
limits leaves exactly one record for that pair, carrying the limit saved
last. -/
theorem saveBudget_unique_pair (budgets : List Budget) (m c : String) (l1 l2 : ℚ)
    (hcanon : ∀ b ∈ budgets, b.id = b.month ++ "-" ++ b.category)
    (hnd : (budgets.map (fun b => b.id)).Nodup) :
    (∀ m' c', ((saveBudget budgets m c l1).filter
        (fun b => b.month == m' && b.category == c')).length ≤ 1) ∧
    (saveBudget (saveBudget budgets m c l1) m c l2).filter
        (fun b => b.month == m && b.category == c)
      = [{ id := m ++ "-" ++ c, month := m, category := c, limit := l2 }] := by
  have hcanon1 := saveBudget_canon budgets m c l1 hcanon
  have hnd1 := saveBudget_nodup budgets m c l1 hnd
  exact ⟨fun m' c' => pair_count_le_one _ m' c' hcanon1 hnd1,
         saveBudget_filter_pair _ m c l2 hcanon1 hnd1⟩

/-- C3 witness: saving Food/2024-03 at 100 then at 200 leaves exactly one
record for the pair, at 200. -/
theorem saveBudget_unique_pair_witness :
    ((saveBudget [] "2024-03" "Food" 100).filter
        (fun b => b.month == "2024-03" && b.category == "Food")).length ≤ 1 ∧
    (saveBudget (saveBudget [] "2024-03" "Food" 100) "2024-03" "Food" 200).filter
        (fun b => b.month == "2024-03" && b.category == "Food")
      = [⟨"2024-03-Food", "2024-03", "Food", 200⟩] := by
  have h := saveBudget_unique_pair [] "2024-03" "Food" 100 200 (by simp) (by decide)
  refine ⟨h.1 "2024-03" "Food", ?_⟩
  rw [h.2]
  decide

/-! ## Filtered, date-sorted transaction view (claim C7) -/

theorem containsSub_nil (hay : List Char) : containsSub hay [] = true := by
  cases hay <;> simp [containsSub, List.isPrefixOf]

/-- The empty search matches every transaction. -/
theorem matchesSearch_empty (t : Transaction) : matchesSearch "" t = true := by
  simp [matchesSearch, jsIncludes, containsSub_nil]

/-- C7: the filtered transaction view keeps exactly the records whose
lowercased description (missing treated as empty) or lowercased category
contains the lowercased search text — the empty search keeps every
record — and orders the kept records by date descending. -/
theorem renderTransactions_spec (search : String) (txs : List Transaction) :
    (renderTransactions search txs).Perm
      (txs.filter (fun t => matchesSearch (jsToLower search) t)) ∧
    List.Sorted (fun a b => strLe b.date a.date = true) (renderTransactions search txs) ∧
    (renderTransactions "" txs).Perm txs := by
  refine ⟨?_, ?_, ?_⟩
  · exact List.perm_insertionSort (fun a b => strLe b.date a.date = true)
      (txs.filter (fun t => matchesSearch (jsToLower search) t))
  · exact List.sorted_insertionSort (fun a b => strLe b.date a.date = true)
      (txs.filter (fun t => matchesSearch (jsToLower search) t))
  · have hall : txs.filter (fun t => matchesSearch (jsToLower "") t) = txs :=
      List.filter_eq_self.mpr fun t _ => matchesSearch_empty t
    have hperm := List.perm_insertionSort (fun a b => strLe b.date a.date = true)
      (txs.filter (fun t => matchesSearch (jsToLower "") t))
    exact hperm.trans (by rw [hall])

/-! ## Historical balance trend (claim C6) -/

theorem catLookup_nil (c : String) : catLookup [] c = 0 := rfl

/-- The bucket of month `m` in the history object is the sum, over ALL
transactions dated in `m`, of signed amounts (income positive, anything
else negative). -/
theorem catLookup_balanceHistory (txs : List Transaction) (m : String) :
    catLookup (balanceHistory txs) m
      = ((txs.filter (fun t => jsSlice7 t.date == m)).map
          (fun t => if t.type == "income" then t.amount else -t.amount)).sum := by
  have h := catLookup_foldl (fun _ => true) (fun t => jsSlice7 t.date)
    (fun t => if t.type == "income" then t.amount else -t.amount) txs [] m
  simpa [balanceHistory, catLookup_nil] using h

/-- The months appearing in the history object are exactly the 7-character
date prefixes occurring among ALL transactions. -/
theorem mem_keys_balanceHistory (txs : List Transaction) (m : String) :
    m ∈ (balanceHistory txs).map Prod.fst ↔ ∃ t ∈ txs, jsSlice7 t.date = m := by
  have h := mem_keys_foldl (fun _ => true) (fun t => jsSlice7 t.date)
    (fun t => if t.type == "income" then t.amount else -t.amount) txs [] m
  simpa [balanceHistory] using h

/-- When every transaction type is `income` or `expense`, the signed sum
over a month splits as that month's income total minus its expense
total. -/
theorem signed_sum_split (txs : List Transaction) (m : String)
    (htypes : ∀ t ∈ txs, t.type = "income" ∨ t.type = "expense") :
    ((txs.filter (fun t => jsSlice7 t.date == m)).map
        (fun t => if t.type == "income" then t.amount else -t.amount)).sum
      = ((txs.filter (fun t => t.type == "income" && jsSlice7 t.date == m)).map
          (fun t => t.amount)).sum
        - ((txs.filter (fun t => t.type == "expense" && jsSlice7 t.date == m)).map
            (fun t => t.amount)).sum := by
  induction txs with
  | nil => simp
  | cons t ts ih =>
    have hts := ih fun u hu => htypes u (List.mem_cons_of_mem t hu)
    have hiexp : (("income" : String) == "expense") = false := by decide
    have hexpi : (("expense" : String) == "income") = false := by decide
    by_cases hm : (jsSlice7 t.date == m) = true
    · rcases htypes t (List.mem_cons_self t ts) with h | h
      · simp [List.filter_cons, hm, h, hiexp] at hts ⊢
        rw [hts]; ring
      · simp [List.filter_cons, hm, h, hexpi] at hts ⊢
        rw [hts]; ring
    · simp [List.filter_cons, hm] at hts ⊢
      exact hts

/-- C6: the balance trend groups ALL transactions by the 7-character month
prefix of their date, lists the months in ascending lexicographic order,
and assigns each month exactly that month's income total minus that
month's expense total (not a cumulative balance). -/
theorem balanceTrend_spec (txs : List Transaction)
    (htypes : ∀ t ∈ txs, t.type = "income" ∨ t.type = "expense") :
    List.Sorted (fun a b : String => strLe a b = true) ((balanceTrend txs).map Prod.fst) ∧
    (∀ m, m ∈ (balanceTrend txs).map Prod.fst ↔ ∃ t ∈ txs, jsSlice7 t.date = m) ∧
    (∀ p ∈ balanceTrend txs,
      p.2 = ((txs.filter (fun t => t.type == "income" && jsSlice7 t.date == p.1)).map
               (fun t => t.amount)).sum
           - ((txs.filter (fun t => t.type == "expense" && jsSlice7 t.date == p.1)).map
               (fun t => t.amount)).sum) := by
  have hfst : (balanceTrend txs).map Prod.fst
      = ((balanceHistory txs).map Prod.fst).insertionSort (fun a b => strLe a b = true) := by
    simp only [balanceTrend, List.map_map]
    have hcompid : (Prod.fst ∘ fun m => (m, catLookup (balanceHistory txs) m))
        = fun m : String => m := by
      funext m; rfl
    rw [hcompid, List.map_id']
  refine ⟨?_, ?_, ?_⟩
  · rw [hfst]
    exact List.sorted_insertionSort (fun a b => strLe a b = true)
      ((balanceHistory txs).map Prod.fst)
  · intro m
    rw [hfst, (List.perm_insertionSort (fun a b => strLe a b = true)
      ((balanceHistory txs).map Prod.fst)).mem_iff]
    exact mem_keys_balanceHistory txs m
  · intro p hp
    simp only [balanceTrend, List.mem_map] at hp
    obtain ⟨m, -, rfl⟩ := hp
    rw [catLookup_balanceHistory]
    exact signed_sum_split txs m htypes

/-- C6 witness: the three-month scenario with nets 100, -50 and 30 — the
trend lists months ascending and gives February its own net, income minus
expense. -/
theorem balanceTrend_spec_witness :
    (∀ t ∈ trendTxs, t.type = "income" ∨ t.type = "expense") ∧
    List.Sorted (fun a b : String => strLe a b = true)
      ((balanceTrend trendTxs).map Prod.fst) ∧
    (("2024-02" : String) ∈ (balanceTrend trendTxs).map Prod.fst ↔
      ∃ t ∈ trendTxs, jsSlice7 t.date = "2024-02") := by
  have htypes : ∀ t ∈ trendTxs, t.type = "income" ∨ t.type = "expense" := by decide
  have h := balanceTrend_spec trendTxs htypes
  exact ⟨htypes, h.1, h.2.1 "2024-02"⟩

/-! ## Dashboard aggregation (claims C8, C10) -/

/-- The dashboard loop, unrolled over any worklist from any accumulator:
income collects `type === 'income'`, expense and the per-category map
collect EVERYTHING else. -/
theorem updateDashboard_fold (L : List Transaction) :
    ∀ s : DashTotals,
    ((L.foldl (fun s t =>
        if t.type == "income" then { s with income := s.income + t.amount }
        else { s with expense := s.expense + t.amount,
                      byCat := addToCat s.byCat t.category t.amount }) s).income
      = s.income + ((L.filter (fun t => t.type == "income")).map (fun t => t.amount)).sum) ∧
    ((L.foldl (fun s t =>
        if t.type == "income" then { s with income := s.income + t.amount }
        else { s with expense := s.expense + t.amount,
                      byCat := addToCat s.byCat t.category t.amount }) s).expense
      = s.expense + ((L.filter (fun t => !(t.type == "income"))).map (fun t => t.amount)).sum) ∧
    (∀ c, catLookup (L.foldl (fun s t =>
        if t.type == "income" then { s with income := s.income + t.amount }
        else { s with expense := s.expense + t.amount,
                      byCat := addToCat s.byCat t.category t.amount }) s).byCat c
      = catLookup s.byCat c
        + ((L.filter (fun t => !(t.type == "income") && t.category == c)).map
            (fun t => t.amount)).sum) := by
  induction L with
  | nil => intro s; simp
  | cons t ts ih =>
    intro s
    by_cases ht : (t.type == "income") = true
    · simp only [List.foldl_cons, if_pos ht]
      obtain ⟨h1, h2, h3⟩ := ih { s with income := s.income + t.amount }
      refine ⟨?_, ?_, fun c => ?_⟩
      · rw [h1]; simp [List.filter_cons, ht]; ring
      · rw [h2]; simp [List.filter_cons, ht]
      · rw [h3 c]; simp [List.filter_cons, ht]
    · simp only [List.foldl_cons, if_neg ht]
      obtain ⟨h1, h2, h3⟩ := ih { s with expense := s.expense + t.amount,
                                         byCat := addToCat s.byCat t.category t.amount }
      refine ⟨?_, ?_, fun c => ?_⟩
      · rw [h1]; simp [List.filter_cons, ht]
      · rw [h2]; simp [List.filter_cons, ht]; ring
      · rw [h3 c, catLookup_addToCat]
        by_cases hc : t.category = c
        · simp [List.filter_cons, ht, hc]; ring
        · simp [List.filter_cons, ht, hc]
          intro habs
          exact absurd habs.symm hc

/-- `reduce((acc, b) => acc + b.limit, 0)` is the sum of the filtered
limits. -/
theorem totalBudgetLimit_eq_sum (month : String) (budgets : List Budget) :
    totalBudgetLimit month budgets
      = ((budgets.filter (fun b => b.month == month)).map (fun b => b.limit)).sum := by
  simp only [totalBudgetLimit]
  generalize budgets.filter (fun b => b.month == month) = l
  have hgen : ∀ (l : List Budget) (a : ℚ),
      l.foldl (fun acc b => acc + b.limit) a = a + (l.map (fun b => b.limit)).sum := by
    intro l
    induction l with
    | nil => intro a; simp
    | cons b bs ihb => intro a; simp [List.foldl_cons, ihb]; ring
  simpa using hgen l 0

/-- C8: over the current period, dashboard income is the sum of income
amounts, expense the sum of expense amounts, balance their difference,
`expensesByCategory` the per-category expense sums, and — when some budget
limit exists for the period — the budget-status percentage is
`expense / totalBudgetLimit * 100` with the limit summed over the
period's budgets. -/
theorem updateDashboard_spec (month : String) (txs : List Transaction)
    (budgets : List Budget)
    (htypes : ∀ t ∈ txs, t.type = "income" ∨ t.type = "expense") :
    (updateDashboard month txs).income
      = ((txs.filter (fun t => jsStartsWith t.date month && t.type == "income")).map
          (fun t => t.amount)).sum ∧
    (updateDashboard month txs).expense
      = ((txs.filter (fun t => jsStartsWith t.date month && t.type == "expense")).map
          (fun t => t.amount)).sum ∧
    (updateDashboard month txs).income - (updateDashboard month txs).expense
      = ((txs.filter (fun t => jsStartsWith t.date month && t.type == "income")).map
          (fun t => t.amount)).sum
        - ((txs.filter (fun t => jsStartsWith t.date month && t.type == "expense")).map
            (fun t => t.amount)).sum ∧
    (∀ c, catLookup (updateDashboard month txs).byCat c
      = ((txs.filter (fun t => jsStartsWith t.date month && t.type == "expense"
            && t.category == c)).map (fun t => t.amount)).sum) ∧
    totalBudgetLimit month budgets
      = ((budgets.filter (fun b => b.month == month)).map (fun b => b.limit)).sum ∧
    (0 < totalBudgetLimit month budgets →
      dashBudgetStatus month txs budgets
        = (updateDashboard month txs).expense / totalBudgetLimit month budgets * 100) := by
  obtain ⟨h1, h2, h3⟩ := updateDashboard_fold
    (txs.filter (fun t => jsStartsWith t.date month)) { income := 0, expense := 0, byCat := [] }
  have hinc : (updateDashboard month txs).income
      = ((txs.filter (fun t => jsStartsWith t.date month && t.type == "income")).map
          (fun t => t.amount)).sum := by
    rw [show (updateDashboard month txs).income = _ from h1, List.filter_filter]
    simp
    refine congrArg List.sum (congrArg _ ?_)
    exact List.filter_congr fun t _ => Bool.and_comm _ _
  have hexp : (updateDashboard month txs).expense
      = ((txs.filter (fun t => jsStartsWith t.date month && t.type == "expense")).map
          (fun t => t.amount)).sum := by
    rw [show (updateDashboard month txs).expense = _ from h2, List.filter_filter]
    simp
    refine congrArg List.sum (congrArg _ ?_)
    refine List.filter_congr fun t ht => ?_
    rcases htypes t ht with h | h <;> simp [h]
  have hcat : ∀ c, catLookup (updateDashboard month txs).byCat c
      = ((txs.filter (fun t => jsStartsWith t.date month && t.type == "expense"
            && t.category == c)).map (fun t => t.amount)).sum := by
    intro c
    rw [show catLookup (updateDashboard month txs).byCat c = _ from h3 c, List.filter_filter]
    simp [catLookup_nil]
    refine congrArg List.sum (congrArg _ ?_)
    refine List.filter_congr fun t ht => ?_
    rcases htypes t ht with h | h <;> simp [h, Bool.and_comm]
  refine ⟨hinc, hexp, by rw [hinc, hexp], hcat, totalBudgetLimit_eq_sum month budgets, ?_⟩
  intro hpos
  simp only [dashBudgetStatus]
  rw [if_pos hpos]

/-- C8 witness: income 30 and expense 50 in March 2024 with a 100 budget
give dashboard income 30, expense 50 and budget status 50%. -/
theorem updateDashboard_spec_witness :
    (updateDashboard "2024-03" dashTxs).income = 30 ∧
    (updateDashboard "2024-03" dashTxs).expense = 50 ∧
    dashBudgetStatus "2024-03" dashTxs dashBudgets = 50 := by
  have h := updateDashboard_spec "2024-03" dashTxs dashBudgets (by decide)
  have hie : (("income" : String) == "expense") = false := by decide
  have hei : (("expense" : String) == "income") = false := by decide
  have htot : totalBudgetLimit "2024-03" dashBudgets = 100 := by
    norm_num [totalBudgetLimit, dashBudgets, List.filter, List.foldl]
  have hexp : (updateDashboard "2024-03" dashTxs).expense = 50 := by
    rw [h.2.1]
    norm_num [dashTxs, jsStartsWith, List.filter, hie, hei]
  refine ⟨?_, hexp, ?_⟩
  · rw [h.1]
    norm_num [dashTxs, jsStartsWith, List.filter, hie, hei]
  · have hs := h.2.2.2.2.2 (by rw [htot]; norm_num)
    rw [hs, hexp, htot]
    norm_num

/-- C10 (implicit): the dashboard partition is decided solely by the test
`type === 'income'` — every current-period transaction whose type is not
exactly `income` (whatever it is) is added to the expense total and to
`expensesByCategory`. -/
theorem updateDashboard_income_test_only (month : String) (txs : List Transaction) :
    (updateDashboard month txs).expense
      = ((txs.filter (fun t => jsStartsWith t.date month && !(t.type == "income"))).map
          (fun t => t.amount)).sum ∧
    (∀ c, catLookup (updateDashboard month txs).byCat c
      = ((txs.filter (fun t => jsStartsWith t.date month
            && (!(t.type == "income") && t.category == c))).map (fun t => t.amount)).sum) ∧
    (updateDashboard month txs).income
      = ((txs.filter (fun t => jsStartsWith t.date month && t.type == "income")).map
          (fun t => t.amount)).sum := by
  obtain ⟨h1, h2, h3⟩ := updateDashboard_fold
    (txs.filter (fun t => jsStartsWith t.date month)) { income := 0, expense := 0, byCat := [] }
  refine ⟨?_, fun c => ?_, ?_⟩
  · rw [show (updateDashboard month txs).expense = _ from h2, List.filter_filter]
    simp
    refine congrArg List.sum (congrArg _ ?_)
    exact List.filter_congr fun t _ => Bool.and_comm _ _
  · rw [show catLookup (updateDashboard month txs).byCat c = _ from h3 c, List.filter_filter]
    simp [catLookup_nil]
    refine congrArg List.sum (congrArg _ ?_)
    exact List.filter_congr fun t _ => Bool.and_comm _ _
  · rw [show (updateDashboard month txs).income = _ from h1, List.filter_filter]
    simp
    refine congrArg List.sum (congrArg _ ?_)
    exact List.filter_congr fun t _ => Bool.and_comm _ _

end FinanceApp
